import Mathlib

/-!
Verification of the boundary-snapping and content-aware reframe pipeline of
the claude-shorts repository.

Times and pixel coordinates are modelled as rationals; machine floats in the
sources perform only arithmetic that is exact on the inputs considered here.

The renderer side (remotion/src/components/VideoFrame.tsx, remotion/src/Root.tsx,
remotion/render.mjs, scripts/export.sh) is embedded directly from the sources.
The boundary snapper (scripts/snap_boundaries.py) is not present in the source
tree; it is modelled from the specification, as marked on each definition.
-/

namespace ClaudeShorts

/-- Static framing rectangle in source pixel space (types.ts CropSchema). -/
structure Crop where
  x : ℚ
  y : ℚ
  w : ℚ
  h : ℚ
deriving DecidableEq, Repr

/-- One time-stamped horizontal offset of an animated pan (types.ts CropKeyframeSchema). -/
structure CropKeyframe where
  t : ℚ
  x : ℚ
deriving DecidableEq, Repr

/-- One caption with absolute millisecond timing (types.ts CaptionSchema). -/
structure Caption where
  text : String
  startMs : ℚ
  endMs : ℚ
deriving DecidableEq, Repr

/-!
Embedding of the remotion interpolate helper as invoked by VideoFrame.tsx with
extrapolateLeft and extrapolateRight both set to clamp and the default linear
easing. findRange mirrors the index search loop of the library: starting from
index 1, it stops at the first input-range entry that is at least the input,
never moving past the second-to-last entry.
-/

/-- Index search of the remotion interpolate helper, written structurally:
for a range with at least three entries the loop may advance, otherwise the
first segment is used. -/
def findRange (input : ℚ) : List ℚ → ℕ
  | _ :: t1 :: t2 :: rest => if input ≤ t1 then 0 else findRange input (t1 :: t2 :: rest) + 1
  | _ => 0

/-- Single-segment interpolation of the remotion helper with clamp
extrapolation on both sides and linear easing. -/
def interpolateFunction (input inputMin inputMax outputMin outputMax : ℚ) : ℚ :=
  let r1 := if input < inputMin then inputMin else input
  let r2 := if inputMax < r1 then inputMax else r1
  if outputMin = outputMax then outputMin
  else if inputMin = inputMax then (if input ≤ inputMin then outputMin else outputMax)
  else outputMin + (r2 - inputMin) / (inputMax - inputMin) * (outputMax - outputMin)

/-- Full interpolate call over parallel input and output ranges, as invoked by
VideoFrame.tsx on the keyframe times and x positions. -/
def interpolateList (input : ℚ) (inputRange outputRange : List ℚ) : ℚ :=
  let r := findRange input inputRange
  interpolateFunction input (inputRange.getD r 0) (inputRange.getD (r + 1) 0)
    (outputRange.getD r 0) (outputRange.getD (r + 1) 0)

/-- Crop x used by VideoFrame.tsx at clip time t: the static crop x, overridden
by keyframe interpolation when at least two keyframes are present. -/
def cropXAt (crop : Crop) (cropKeyframes : List CropKeyframe) (t : ℚ) : ℚ :=
  if 2 ≤ cropKeyframes.length then
    interpolateList t (cropKeyframes.map (fun k => k.t)) (cropKeyframes.map (fun k => k.x))
  else crop.x

/-- Piecewise-linear interpolation of a keyframe list, written from the
specification wording: between two consecutive keyframes the value is the
linear blend, and outside the covered range the nearest endpoint value is
held. Used as the specification-side description against which the
VideoFrame.tsx embedding is compared. -/
def pwlAt : List CropKeyframe → ℚ → ℚ
  | [], _ => 0
  | [k], _ => k.x
  | k1 :: k2 :: rest, t =>
      if t ≤ k2.t then
        if t < k1.t then k1.x
        else k1.x + (t - k1.t) / (k2.t - k1.t) * (k2.x - k1.x)
      else pwlAt (k2 :: rest) t

/-- Modelled from the spec: the bounds-enforcement clamp of compute_reframe.py
(ReframeEngine step 5), which is not under src. Every emitted keyframe x is
clamped so the crop rectangle of width cropWidth stays inside the source
width before emission. -/
def emitX (sourceWidth cropWidth x : ℚ) : ℚ :=
  max 0 (min x (sourceWidth - cropWidth))

/-- Emission of a keyframe list with the clamp of emitX applied to every x,
keeping the times unchanged. Modelled from the spec: compute_reframe.py is
not under src. -/
def emitKeyframes (sourceWidth cropWidth : ℚ) (raw : List CropKeyframe) : List CropKeyframe :=
  raw.map (fun k => ⟨k.t, emitX sourceWidth cropWidth k.x⟩)

/-!  Root.tsx composition metadata.  -/

/-- Input props of the ShortVideo composition (types.ts ShortVideoPropsSchema). -/
structure ShortVideoProps where
  clipSrc : String
  sourceWidth : ℚ
  sourceHeight : ℚ
  crop : Crop
  cropKeyframes : List CropKeyframe
  captions : List Caption
  captionStyle : String
  hookLine1 : String
  hookLine2 : String
  showProgressBar : Bool
  durationInSeconds : ℚ

/-- Composition metadata returned to remotion by Root.tsx. -/
structure CompositionMetadata where
  durationInFrames : ℤ
  fps : ℤ
  width : ℤ
  height : ℤ
deriving DecidableEq, Repr

/-- Embedding of calculateMetadata in Root.tsx. -/
def calculateMetadata (props : ShortVideoProps) : CompositionMetadata :=
  { durationInFrames := ⌈props.durationInSeconds * 30⌉
    fps := 30
    width := 1080
    height := 1920 }

/-!  render.mjs per-segment caption selection and default crop fallback.  -/

/-- Caption shifted to clip-local time, as built inside the segCaptions map of
render.mjs. -/
def shiftCaption (segStartMs : ℚ) (c : Caption) : Caption :=
  ⟨c.text, c.startMs - segStartMs, c.endMs - segStartMs⟩

/-- Embedding of the segCaptions computation of render.mjs: keep exactly the
captions lying entirely inside the segment and shift them to clip-local
milliseconds. -/
def segCaptions (allCaptions : List Caption) (segStart segEnd : ℚ) : List Caption :=
  (allCaptions.filter
      (fun c => decide (segStart * 1000 ≤ c.startMs) && decide (c.endMs ≤ segEnd * 1000))).map
    (shiftCaption (segStart * 1000))

/-- Embedding of the crop selection of render.mjs: the reframe crop when
present, otherwise the literal fallback crop of the source. -/
def renderCrop (reframeCrop : Option Crop) : Crop :=
  reframeCrop.getD ⟨0, 0, 607, 1080⟩

/-!  scripts/export.sh: platform expansion and the skip-existing guard.  -/

/-- Target platform of one export variant. -/
inductive Platform where
  | youtube
  | tiktok
  | instagram
deriving DecidableEq, Repr

/-- Filename suffix chosen by the platform case of export.sh. -/
def platformSuffix : Platform → String
  | .youtube => "_yt"
  | .tiktok => "_tt"
  | .instagram => "_ig"

/-- Output filename built by export.sh for one input number and platform. -/
def outName (num : String) (p : Platform) : String :=
  "short_" ++ num ++ platformSuffix p ++ ".mp4"

/-- Platform list of one run: the all value expands to the three platforms,
a known single platform to itself, anything else is skipped by the case
statement of the inner loop. -/
def platformsFor (arg : String) : List Platform :=
  if arg = "all" then [.youtube, .tiktok, .instagram]
  else if arg = "youtube" then [.youtube]
  else if arg = "tiktok" then [.tiktok]
  else if arg = "instagram" then [.instagram]
  else []

/-- State threaded through the export loop: the output directory contents as
a map from filename to file content, the reported result entries as pairs of
filename and skipped flag, and the list of files an encode was invoked for. -/
structure ExportState where
  fs : String → Option ℕ
  results : List (String × Bool)
  encoded : List String

/-- One iteration of the inner platform loop of export.sh for one input file:
when the output already exists and force is off, the file is left untouched
and reported with the skipped flag; otherwise the encode function runs and
its output replaces (or creates) the file. The content written by an encode
is abstracted by the enc parameter. -/
def exportStep (enc : String → String → ℕ) (force : Bool) (input num : String)
    (st : ExportState) (p : Platform) : ExportState :=
  if (st.fs (outName num p)).isSome && !force then
    { st with results := st.results ++ [(outName num p, true)] }
  else
    { fs := fun n => if n = outName num p then some (enc input (outName num p)) else st.fs n
      results := st.results ++ [(outName num p, false)]
      encoded := st.encoded ++ [outName num p] }

/-- The platform loop of export.sh for one input file. -/
def exportRun (enc : String → String → ℕ) (force : Bool) (input num : String)
    (platforms : List Platform) (st : ExportState) : ExportState :=
  platforms.foldl (exportStep enc force input num) st

/-!
Boundary snapper. scripts/snap_boundaries.py is not part of the source tree;
every definition below is modelled from the specification (section 4.3 of the
design document and step 7 of the skill description). All times inside the
snapper are rational milliseconds; segments enter and leave in seconds.
-/

/-- One transcribed token with millisecond timing. Modelled from the spec:
the Word entity of the snap_boundaries.py data model. -/
structure Word where
  text : String
  startMs : ℚ
  endMs : ℚ
deriving DecidableEq, Repr

/-- One detected quiet span of the source audio. Modelled from the spec: the
SilenceInterval entity of the snap_boundaries.py data model. -/
structure SilenceInterval where
  startMs : ℚ
  endMs : ℚ
deriving DecidableEq, Repr

/-- Externally chosen candidate range in seconds. Modelled from the spec. -/
structure RoughSegment where
  startSec : ℚ
  endSec : ℚ
deriving DecidableEq, Repr

/-- Corrected, renderable segment in seconds. Modelled from the spec. -/
structure SnappedSegment where
  startSec : ℚ
  endSec : ℚ
deriving DecidableEq, Repr

/-- Snapper configuration: whether silence refinement runs (the no-silence
flag of the script disables it). Modelled from the spec. -/
structure SnapConfig where
  useSilence : Bool
deriving DecidableEq, Repr

/-- True when a word ends in terminal punctuation, the derivation rule for
sentence boundaries: the trailing character of the word text is a period, a
question mark or an exclamation mark. Modelled from the spec. -/
def endsSentence (w : Word) : Bool :=
  match w.text.data.getLast? with
  | some c => c = '.' || c = '?' || c = '!'
  | none => false

/-- Sentence boundary timestamps: the end times of sentence-final words.
Modelled from the spec. -/
def sentenceBoundaries (ws : List Word) : List ℚ :=
  (ws.filter endsSentence).map (fun w => w.endMs)

/-- Word boundary timestamps: the start or end timestamp of any word.
Modelled from the spec glossary. -/
def wordBoundaries (ws : List Word) : List ℚ :=
  ws.map (fun w => w.startMs) ++ ws.map (fun w => w.endMs)

/-- Largest element of a rational list, none when empty. -/
def listMax : List ℚ → Option ℚ
  | [] => none
  | x :: xs =>
      match listMax xs with
      | none => some x
      | some m => some (max x m)

/-- Smallest element of a rational list, none when empty. -/
def listMin : List ℚ → Option ℚ
  | [] => none
  | x :: xs =>
      match listMin xs with
      | none => some x
      | some m => some (min x m)

/-- Nearest word boundary at or before t. Modelled from the spec:
the TranscriptIndex query used by snapper step 1. -/
def atOrBefore (ws : List Word) (t : ℚ) : Option ℚ :=
  listMax ((wordBoundaries ws).filter (fun b => decide (b ≤ t)))

/-- Nearest word boundary at or after t. Modelled from the spec:
the TranscriptIndex query used by snapper step 2. -/
def atOrAfter (ws : List Word) (t : ℚ) : Option ℚ :=
  listMin ((wordBoundaries ws).filter (fun b => decide (t ≤ b)))

/-- Next sentence boundary no earlier than t and within the window. Modelled
from the spec: the TranscriptIndex query used by snapper step 2. -/
def nextSentenceWithin (ws : List Word) (t win : ℚ) : Option ℚ :=
  listMin ((sentenceBoundaries ws).filter (fun b => decide (t ≤ b) && decide (b ≤ t + win)))

/-- Closest candidate within tolerance of x, folded over the candidate list
with the accumulator replaced only on strictly smaller distance. Modelled
from the spec: the sentence preference of snapper step 1. -/
def pickClosest (x tol : ℚ) : List ℚ → Option ℚ → Option ℚ
  | [], acc => acc
  | b :: rest, none =>
      pickClosest x tol rest (if |x - b| ≤ tol then some b else none)
  | b :: rest, some c =>
      pickClosest x tol rest
        (if |x - b| ≤ tol then (if |x - b| < |x - c| then some b else some c) else some c)

/-- True when t lies strictly inside some word. Modelled from the spec:
the word-interior test of silence refinement. -/
def wordInterior (ws : List Word) (t : ℚ) : Bool :=
  ws.any (fun w => decide (w.startMs < t) && decide (t < w.endMs))

/-- True when some word overlaps the open range from s to e. Modelled from
the spec: the degraded-mode test of the failure semantics. -/
def overlapsRange (ws : List Word) (s e : ℚ) : Bool :=
  ws.any (fun w => decide (w.startMs < e) && decide (s < w.endMs))

/-- Snapper step 1 on milliseconds: move the start to the nearest word
boundary at or before it (keeping the rough start when none exists), then
prefer a sentence boundary within the 150 ms tolerance. Modelled from the
spec. -/
def snapStartMs (ws : List Word) (s : ℚ) : ℚ :=
  let b := (atOrBefore ws s).getD s
  match pickClosest b 150 (sentenceBoundaries ws) none with
  | some sb => sb
  | none => b

/-- Snapper step 2 on milliseconds: extend the end to a sentence boundary
within 3000 ms after the rough end when one exists, otherwise snap to the
nearest word boundary at or after it (keeping the rough end when none
exists). Modelled from the spec. -/
def snapEndMs (ws : List Word) (e : ℚ) : ℚ :=
  match nextSentenceWithin ws e 3000 with
  | some sb => sb
  | none => (atOrAfter ws e).getD e

/-- Snapper step 4 on one boundary: move to the midpoint of the first silence
interval overlapping the 500 ms window around the boundary, unless that
midpoint is word-interior, in which case the boundary keeps its incoming
word-boundary value. Modelled from the spec. -/
def refineMs (ws : List Word) (sil : List SilenceInterval) (x : ℚ) : ℚ :=
  match sil.find? (fun i => decide (i.startMs ≤ x + 500) && decide (x - 500 ≤ i.endMs)) with
  | none => x
  | some i =>
      let m := (i.startMs + i.endMs) / 2
      if wordInterior ws m then x else m

/-- Snapper steps 1 to 4 on milliseconds: boundary correction with the fixed
300 ms trailing padding and optional silence refinement, all skipped when no
word overlaps the rough range. Modelled from the spec. -/
def correctMs (cfg : SnapConfig) (ws : List Word) (sil : List SilenceInterval)
    (s e : ℚ) : ℚ × ℚ :=
  if overlapsRange ws s e then
    let s1 := snapStartMs ws s
    let e1 := snapEndMs ws e + 300
    if cfg.useSilence then (refineMs ws sil s1, refineMs ws sil e1) else (s1, e1)
  else (s, e)

/-- Snapper steps 5 and 6 on milliseconds: extend the end to the 5000 ms
minimum capped at the video end, or trim it back to the nearest word
boundary at or before the 60000 ms cap (hard cap when no boundary lies
strictly after the start within the cap), then clamp both bounds to the
video. Modelled from the spec. -/
def enforceMs (ws : List Word) (durMs : ℚ) (s e : ℚ) : ℚ × ℚ :=
  let e1 :=
    if e - s < 5000 then min (s + 5000) durMs
    else if 60000 < e - s then
      (listMax ((wordBoundaries ws).filter
        (fun b => decide (s < b) && decide (b ≤ s + 60000)))).getD (s + 60000)
    else e
  (max 0 (min s durMs), max 0 (min e1 durMs))

/-- Full boundary snapper on one rough segment, converting seconds to
milliseconds at entry and back at exit. Modelled from the spec. -/
def snapSegment (cfg : SnapConfig) (ws : List Word) (sil : List SilenceInterval)
    (videoDurationSec : ℚ) (r : RoughSegment) : SnappedSegment :=
  let c := correctMs cfg ws sil (r.startSec * 1000) (r.endSec * 1000)
  let p := enforceMs ws (videoDurationSec * 1000) c.1 c.2
  ⟨p.1 / 1000, p.2 / 1000⟩

/-- Concrete two-word transcript used by the concrete instances: a sentence
ending at 2000 ms followed by a word from 3000 ms to 4000 ms. -/
def wordsEx : List Word := [⟨"Hi.", 1000, 2000⟩, ⟨"there", 3000, 4000⟩]

/-- Configuration with silence refinement disabled (the no-silence flag). -/
def cfgNoSil : SnapConfig := ⟨false⟩

/-!  Helper lemmas about the list extrema.  -/

theorem listMax_mem : ∀ {l : List ℚ} {m : ℚ}, listMax l = some m → m ∈ l := by
  intro l
  induction l with
  | nil => intro m h; simp [listMax] at h
  | cons x xs ih =>
      intro m h
      simp only [listMax] at h
      cases hxs : listMax xs with
      | none => rw [hxs] at h; simp at h; simp [h]
      | some m2 =>
          rw [hxs] at h
          simp at h
          rcases max_choice x m2 with hc | hc <;> rw [hc] at h
          · simp [h.symm]
          · exact List.mem_cons_of_mem x (h ▸ ih hxs)

theorem listMax_eq_none {l : List ℚ} (h : listMax l = none) : l = [] := by
  cases l with
  | nil => rfl
  | cons x xs =>
      simp only [listMax] at h
      cases hxs : listMax xs with
      | none => rw [hxs] at h; simp at h
      | some m => rw [hxs] at h; simp at h

theorem le_listMax : ∀ {l : List ℚ} {m : ℚ}, listMax l = some m → ∀ x ∈ l, x ≤ m := by
  intro l
  induction l with
  | nil => intro m h; simp [listMax] at h
  | cons y ys ih =>
      intro m h x hx
      simp only [listMax] at h
      cases hys : listMax ys with
      | none =>
          rw [hys] at h
          simp at h
          rcases List.mem_cons.mp hx with hc | hc
          · simp [hc, h]
          · rw [listMax_eq_none hys] at hc; simp at hc
      | some m2 =>
          rw [hys] at h
          simp at h
          rcases List.mem_cons.mp hx with hc | hc
          · rw [hc, ← h]; exact le_max_left _ _
          · exact le_trans (ih hys x hc) (h ▸ le_max_right _ _)

theorem listMax_isSome_of_mem {l : List ℚ} {x : ℚ} (hx : x ∈ l) : (listMax l).isSome := by
  cases l with
  | nil => simp at hx
  | cons y ys =>
      simp only [listMax]
      cases listMax ys <;> simp

theorem listMax_eq_of_top {l : List ℚ} {v : ℚ} (hv : v ∈ l) (htop : ∀ x ∈ l, x ≤ v) :
    listMax l = some v := by
  have hs := listMax_isSome_of_mem hv
  cases hm : listMax l with
  | none => rw [hm] at hs; simp at hs
  | some m =>
      have h1 : m ≤ v := htop m (listMax_mem hm)
      have h2 : v ≤ m := le_listMax hm v hv
      rw [le_antisymm h1 h2]

theorem listMin_mem : ∀ {l : List ℚ} {m : ℚ}, listMin l = some m → m ∈ l := by
  intro l
  induction l with
  | nil => intro m h; simp [listMin] at h
  | cons x xs ih =>
      intro m h
      simp only [listMin] at h
      cases hxs : listMin xs with
      | none => rw [hxs] at h; simp at h; simp [h]
      | some m2 =>
          rw [hxs] at h
          simp at h
          rcases min_choice x m2 with hc | hc <;> rw [hc] at h
          · simp [h.symm]
          · exact List.mem_cons_of_mem x (h ▸ ih hxs)

theorem listMin_eq_none {l : List ℚ} (h : listMin l = none) : l = [] := by
  cases l with
  | nil => rfl
  | cons x xs =>
      simp only [listMin] at h
      cases hxs : listMin xs with
      | none => rw [hxs] at h; simp at h
      | some m => rw [hxs] at h; simp at h

theorem listMin_le : ∀ {l : List ℚ} {m : ℚ}, listMin l = some m → ∀ x ∈ l, m ≤ x := by
  intro l
  induction l with
  | nil => intro m h; simp [listMin] at h
  | cons y ys ih =>
      intro m h x hx
      simp only [listMin] at h
      cases hys : listMin ys with
      | none =>
          rw [hys] at h
          simp at h
          rcases List.mem_cons.mp hx with hc | hc
          · simp [hc, h]
          · rw [listMin_eq_none hys] at hc; simp at hc
      | some m2 =>
          rw [hys] at h
          simp at h
          rcases List.mem_cons.mp hx with hc | hc
          · rw [hc, ← h]; exact min_le_left _ _
          · exact le_trans (h ▸ min_le_right _ _) (ih hys x hc)

/-!  Helper lemmas about the closest-candidate fold.  -/

theorem pickClosest_mem (x tol : ℚ) :
    ∀ (l : List ℚ) (acc : Option ℚ) {y : ℚ},
      pickClosest x tol l acc = some y → y ∈ l ∨ acc = some y := by
  intro l
  induction l with
  | nil => intro acc y h; simp only [pickClosest] at h; right; exact h
  | cons b rest ih =>
      intro acc y h
      cases acc with
      | none =>
          simp only [pickClosest] at h
          rcases ih _ h with hc | hc
          · left; exact List.mem_cons_of_mem b hc
          · by_cases htol : |x - b| ≤ tol
            · rw [if_pos htol] at hc; simp at hc; left; simp [hc]
            · rw [if_neg htol] at hc; simp at hc
      | some c =>
          simp only [pickClosest] at h
          rcases ih _ h with hc | hc
          · left; exact List.mem_cons_of_mem b hc
          · by_cases htol : |x - b| ≤ tol
            · rw [if_pos htol] at hc
              by_cases hlt : |x - b| < |x - c|
              · rw [if_pos hlt] at hc; simp at hc; left; simp [hc]
              · rw [if_neg hlt] at hc; right; exact hc
            · rw [if_neg htol] at hc; right; exact hc

theorem pickClosest_keep (x tol : ℚ) :
    ∀ (l : List ℚ), pickClosest x tol l (some x) = some x := by
  intro l
  induction l with
  | nil => simp [pickClosest]
  | cons b rest ih =>
      simp only [pickClosest]
      by_cases htb : |x - b| ≤ tol
      · rw [if_pos htb]
        have hne : ¬ |x - b| < |x - x| := by simp [abs_nonneg]
        rw [if_neg hne]
        exact ih
      · rw [if_neg htb]; exact ih

theorem pickClosest_self (x tol : ℚ) (htol : 0 ≤ tol) :
    ∀ (l : List ℚ), x ∈ l → ∀ acc : Option ℚ, pickClosest x tol l acc = some x := by
  intro l
  induction l with
  | nil => intro h; simp at h
  | cons b rest ih =>
      intro hmem acc
      rcases List.mem_cons.mp hmem with hc | hc
      · subst hc
        cases acc with
        | none =>
            simp only [pickClosest]
            rw [if_pos (by simpa using htol)]
            exact pickClosest_keep x tol rest
        | some c =>
            simp only [pickClosest]
            rw [if_pos (by simpa using htol)]
            by_cases hlt : |x - x| < |x - c|
            · rw [if_pos hlt]; exact pickClosest_keep x tol rest
            · rw [if_neg hlt]
              have hc0 : |x - c| ≤ 0 := by
                by_contra hpos
                exact hlt (by simpa using lt_of_not_le hpos)
              have hzero : x - c = 0 := abs_eq_zero.mp (le_antisymm hc0 (abs_nonneg _))
              have hcx : c = x := by linarith
              rw [hcx]
              exact pickClosest_keep x tol rest
      · cases acc with
        | none => simp only [pickClosest]; exact ih hc _
        | some c => simp only [pickClosest]; exact ih hc _

/-!  Helper lemmas about word boundaries.  -/

theorem mem_wordBoundaries {ws : List Word} {b : ℚ} :
    b ∈ wordBoundaries ws ↔ ∃ w ∈ ws, b = w.startMs ∨ b = w.endMs := by
  simp only [wordBoundaries, List.mem_append, List.mem_map]
  constructor
  · rintro (⟨w, hw, rfl⟩ | ⟨w, hw, rfl⟩)
    · exact ⟨w, hw, Or.inl rfl⟩
    · exact ⟨w, hw, Or.inr rfl⟩
  · rintro ⟨w, hw, rfl | rfl⟩
    · exact Or.inl ⟨w, hw, rfl⟩
    · exact Or.inr ⟨w, hw, rfl⟩

theorem sentence_mem_wordBoundaries {ws : List Word} {b : ℚ}
    (hb : b ∈ sentenceBoundaries ws) : b ∈ wordBoundaries ws := by
  simp only [sentenceBoundaries, List.mem_map, List.mem_filter] at hb
  rcases hb with ⟨w, ⟨hw, _⟩, rfl⟩
  exact mem_wordBoundaries.mpr ⟨w, hw, Or.inr rfl⟩

/-- Transcript well-formedness used by the amended claims: every word has
nonnegative start, positive extent, and ends within the video. -/
def WordsWithin (ws : List Word) (durMs : ℚ) : Prop :=
  ∀ w ∈ ws, 0 ≤ w.startMs ∧ w.startMs < w.endMs ∧ w.endMs ≤ durMs

instance (ws : List Word) (durMs : ℚ) : Decidable (WordsWithin ws durMs) := by
  unfold WordsWithin
  infer_instance

theorem wordBoundaries_bounds {ws : List Word} {durMs b : ℚ}
    (hws : WordsWithin ws durMs) (hb : b ∈ wordBoundaries ws) : 0 ≤ b ∧ b ≤ durMs := by
  rcases mem_wordBoundaries.mp hb with ⟨w, hw, rfl | rfl⟩
  · rcases hws w hw with ⟨h1, h2, h3⟩
    exact ⟨h1, le_trans (le_of_lt h2) h3⟩
  · rcases hws w hw with ⟨h1, h2, h3⟩
    exact ⟨le_trans h1 (le_of_lt h2), h3⟩

/-!  Helper lemmas about the remotion interpolation embedding.  -/

theorem interpolateFunction_in_seg {t t1 t2 x1 x2 : ℚ} (h12 : t1 < t2) (hle : t ≤ t2) :
    interpolateFunction t t1 t2 x1 x2 =
      if t < t1 then x1 else x1 + (t - t1) / (t2 - t1) * (x2 - x1) := by
  have hne : t1 ≠ t2 := ne_of_lt h12
  by_cases hlt : t < t1
  · rw [if_pos hlt]
    simp only [interpolateFunction, if_pos hlt, if_neg (not_lt.mpr (le_of_lt h12))]
    by_cases hxx : x1 = x2
    · rw [if_pos hxx]
    · rw [if_neg hxx, if_neg hne]
      simp
  · rw [if_neg hlt]
    simp only [interpolateFunction, if_neg hlt, if_neg (not_lt.mpr hle)]
    by_cases hxx : x1 = x2
    · rw [if_pos hxx, hxx]
      simp
    · rw [if_neg hxx, if_neg hne]

theorem interpolateFunction_right {t t1 t2 x1 x2 : ℚ} (h12 : t1 < t2) (hgt : t2 < t) :
    interpolateFunction t t1 t2 x1 x2 = x2 := by
  have hne : t1 ≠ t2 := ne_of_lt h12
  have hlt : ¬ t < t1 := not_lt.mpr (le_of_lt (lt_trans h12 hgt))
  simp only [interpolateFunction, if_neg hlt, if_pos hgt]
  by_cases hxx : x1 = x2
  · rw [if_pos hxx, hxx]
  · rw [if_neg hxx, if_neg hne]
    rw [div_self (ne_of_gt (sub_pos.mpr h12))]
    ring

theorem interpolateList_eq_pwlAt :
    ∀ (kfs : List CropKeyframe), 2 ≤ kfs.length →
      (kfs.map (fun k => k.t)).Chain' (· < ·) → ∀ t : ℚ,
      interpolateList t (kfs.map (fun k => k.t)) (kfs.map (fun k => k.x)) = pwlAt kfs t := by
  intro kfs
  induction kfs with
  | nil => intro h; simp at h
  | cons k1 rest ih =>
      intro hlen hmono t
      cases rest with
      | nil => simp at hlen
      | cons k2 rest2 =>
          have h12 : k1.t < k2.t := by
            simp only [List.map_cons, List.chain'_cons] at hmono
            exact hmono.1
          cases rest2 with
          | nil =>
              simp only [List.map_cons, List.map_nil, interpolateList, findRange]
              simp only [List.getD_cons_zero, List.getD_cons_succ, pwlAt]
              by_cases hle : t ≤ k2.t
              · rw [if_pos hle, interpolateFunction_in_seg h12 hle]
              · rw [if_neg hle, interpolateFunction_right h12 (lt_of_not_le hle)]
          | cons k3 rest3 =>
              by_cases hle : t ≤ k2.t
              · simp only [List.map_cons, interpolateList, findRange, if_pos hle]
                simp only [List.getD_cons_zero, List.getD_cons_succ]
                rw [interpolateFunction_in_seg h12 hle]
                simp only [pwlAt, if_pos hle]
              · have htail : ((k2 :: k3 :: rest3).map (fun k => k.t)).Chain' (· < ·) := by
                  simp only [List.map_cons, List.chain'_cons] at hmono ⊢
                  exact hmono.2
                have hlen2 : 2 ≤ (k2 :: k3 :: rest3).length := by simp
                have hstep := ih hlen2 htail t
                simp only [List.map_cons, interpolateList, findRange, if_neg hle,
                  List.getD_cons_succ] at hstep ⊢
                rw [hstep]
                simp only [pwlAt, if_neg hle]

theorem pwlAt_bounds (lo hi : ℚ) :
    ∀ (kfs : List CropKeyframe), kfs ≠ [] →
      (kfs.map (fun k => k.t)).Chain' (· < ·) →
      (∀ k ∈ kfs, lo ≤ k.x ∧ k.x ≤ hi) → ∀ t : ℚ,
      lo ≤ pwlAt kfs t ∧ pwlAt kfs t ≤ hi := by
  intro kfs
  induction kfs with
  | nil => intro h; simp at h
  | cons k1 rest ih =>
      intro _ hmono hbound t
      cases rest with
      | nil =>
          simp only [pwlAt]
          exact hbound k1 (List.mem_singleton.mpr rfl)
      | cons k2 rest2 =>
          have h12 : k1.t < k2.t := by
            simp only [List.map_cons, List.chain'_cons] at hmono
            exact hmono.1
          have hb1 := hbound k1 (List.mem_cons_self _ _)
          have hb2 := hbound k2 (List.mem_cons_of_mem _ (List.mem_cons_self _ _))
          by_cases hle : t ≤ k2.t
          · simp only [pwlAt, if_pos hle]
            by_cases hlt : t < k1.t
            · rw [if_pos hlt]; exact hb1
            · rw [if_neg hlt]
              have hd : (0:ℚ) < k2.t - k1.t := sub_pos.mpr h12
              have hr0 : 0 ≤ (t - k1.t) / (k2.t - k1.t) :=
                div_nonneg (by linarith [not_lt.mp hlt]) (le_of_lt hd)
              have hr1 : (t - k1.t) / (k2.t - k1.t) ≤ 1 :=
                (div_le_one hd).mpr (by linarith)
              constructor
              · nlinarith [mul_nonneg hr0 (by linarith : (0:ℚ) ≤ k2.x - lo),
                  mul_nonneg (by linarith : (0:ℚ) ≤ 1 - (t - k1.t) / (k2.t - k1.t))
                    (by linarith : (0:ℚ) ≤ k1.x - lo)]
              · nlinarith [mul_nonneg hr0 (by linarith : (0:ℚ) ≤ hi - k2.x),
                  mul_nonneg (by linarith : (0:ℚ) ≤ 1 - (t - k1.t) / (k2.t - k1.t))
                    (by linarith : (0:ℚ) ≤ hi - k1.x)]
          · simp only [pwlAt, if_neg hle]
            have htail : ((k2 :: rest2).map (fun k => k.t)).Chain' (· < ·) := by
              simp only [List.map_cons, List.chain'_cons] at hmono ⊢
              cases rest2 with
              | nil => simp
              | cons k3 rest3 =>
                  simp only [List.map_cons, List.chain'_cons] at hmono ⊢
                  exact hmono.2
            exact ih (by simp) htail
              (fun k hk => hbound k (List.mem_cons_of_mem _ hk)) t

/-!  Helper lemmas about the snapper steps.  -/

theorem atOrBefore_self {ws : List Word} {v : ℚ} (hv : v ∈ wordBoundaries ws) :
    atOrBefore ws v = some v := by
  unfold atOrBefore
  apply listMax_eq_of_top
  · simp only [List.mem_filter]
    exact ⟨hv, by simp⟩
  · intro x hx
    simp only [List.mem_filter, decide_eq_true_eq] at hx
    exact hx.2

theorem snapStartMs_mem {ws : List Word} {s : ℚ} (hsome : (atOrBefore ws s).isSome) :
    snapStartMs ws s ∈ wordBoundaries ws := by
  unfold snapStartMs
  cases hb : atOrBefore ws s with
  | none => rw [hb] at hsome; simp at hsome
  | some b =>
      have hbmem : b ∈ wordBoundaries ws := by
        have := listMax_mem hb
        simp only [List.mem_filter] at this
        exact this.1
      simp only [hb, Option.getD_some]
      cases hp : pickClosest b 150 (sentenceBoundaries ws) none with
      | none => exact hbmem
      | some sb =>
          rcases pickClosest_mem b 150 _ none hp with hmem | hmem
          · exact sentence_mem_wordBoundaries hmem
          · simp at hmem

theorem snapStartMs_idem {ws : List Word} {s : ℚ} (hsome : (atOrBefore ws s).isSome) :
    snapStartMs ws (snapStartMs ws s) = snapStartMs ws s := by
  have hmem : snapStartMs ws s ∈ wordBoundaries ws := snapStartMs_mem hsome
  cases hb : atOrBefore ws s with
  | none => rw [hb] at hsome; simp at hsome
  | some b =>
      unfold snapStartMs at hmem ⊢
      simp only [hb, Option.getD_some] at hmem ⊢
      cases hp : pickClosest b 150 (sentenceBoundaries ws) none with
      | none =>
          simp only [hp] at hmem ⊢
          rw [atOrBefore_self hmem]
          simp only [Option.getD_some, hp]
      | some sb =>
          simp only [hp] at hmem ⊢
          have hsb : sb ∈ sentenceBoundaries ws := by
            rcases pickClosest_mem b 150 _ none hp with h | h
            · exact h
            · simp at h
          rw [atOrBefore_self hmem]
          simp only [Option.getD_some]
          rw [pickClosest_self sb 150 (by norm_num) _ hsb none]

theorem clamp_id {v durMs : ℚ} (h0 : 0 ≤ v) (hD : v ≤ durMs) :
    max 0 (min v durMs) = v := by
  rw [min_eq_left hD, max_eq_right h0]

theorem enforceMs_bounds (ws : List Word) (durMs : ℚ) (s e : ℚ) (hD : 0 ≤ durMs) :
    0 ≤ (enforceMs ws durMs s e).1 ∧ (enforceMs ws durMs s e).1 ≤ durMs ∧
    0 ≤ (enforceMs ws durMs s e).2 ∧ (enforceMs ws durMs s e).2 ≤ durMs ∧
    (enforceMs ws durMs s e).2 - (enforceMs ws durMs s e).1 ≤ 60000 := by
  unfold enforceMs
  set e1 :=
    if e - s < 5000 then min (s + 5000) durMs
    else if 60000 < e - s then
      (listMax ((wordBoundaries ws).filter
        (fun b => decide (s < b) && decide (b ≤ s + 60000)))).getD (s + 60000)
    else e with he1
  have hcap : e1 ≤ s + 60000 := by
    rw [he1]
    by_cases h1 : e - s < 5000
    · rw [if_pos h1]
      calc min (s + 5000) durMs ≤ s + 5000 := min_le_left _ _
        _ ≤ s + 60000 := by linarith
    · rw [if_neg h1]
      by_cases h2 : 60000 < e - s
      · rw [if_pos h2]
        cases hm : listMax ((wordBoundaries ws).filter
            (fun b => decide (s < b) && decide (b ≤ s + 60000))) with
        | none => simp
        | some m =>
            simp only [Option.getD_some]
            have := listMax_mem hm
            simp only [List.mem_filter, Bool.and_eq_true, decide_eq_true_eq] at this
            exact this.2.2
      · rw [if_neg h2]; linarith [not_lt.mp h2]
  refine ⟨le_max_left _ _, ?_, le_max_left _ _, ?_, ?_⟩
  · exact max_le hD (min_le_right _ _)
  · exact max_le hD (min_le_right _ _)
  · simp only [max_def, min_def]
    split_ifs <;> linarith

theorem enforceMs_min (ws : List Word) (durMs : ℚ) (s e : ℚ)
    (hs0 : 0 ≤ s) (hsD : s + 5000 ≤ durMs) (hcap : e - s ≤ 60000) :
    5000 ≤ (enforceMs ws durMs s e).2 - (enforceMs ws durMs s e).1 := by
  unfold enforceMs
  have hsle : s ≤ durMs := by linarith
  have hfst : max 0 (min s durMs) = s := clamp_id hs0 hsle
  by_cases h1 : e - s < 5000
  · simp only [if_pos h1, hfst]
    have hmin : min (s + 5000) durMs = s + 5000 := min_eq_left hsD
    rw [hmin, clamp_id (by linarith) hsD]
    linarith
  · simp only [if_neg h1, if_neg (not_lt.mpr hcap), hfst]
    have h5 : s + 5000 ≤ e := by linarith [not_lt.mp h1]
    have : s + 5000 ≤ min e durMs := le_min h5 hsD
    have : s + 5000 ≤ max 0 (min e durMs) := le_trans this (le_max_right _ _)
    linarith

/-!  Helper lemmas about the export loop.  -/

theorem exportStep_fs_preserve (enc : String → String → ℕ) (input num : String)
    (st : ExportState) (p : Platform) (A : String) (v : ℕ) (h : st.fs A = some v) :
    (exportStep enc false input num st p).fs A = some v := by
  unfold exportStep
  by_cases hA : A = outName num p
  · subst hA
    rw [h]
    simpa using h
  · by_cases hs : (st.fs (outName num p)).isSome
    · simp [hs, h]
    · simp [hs, hA, h]

theorem exportStep_encoded_preserve (enc : String → String → ℕ) (input num : String)
    (st : ExportState) (p : Platform) (A : String) (v : ℕ)
    (h : st.fs A = some v) (henc : A ∉ st.encoded) :
    A ∉ (exportStep enc false input num st p).encoded := by
  unfold exportStep
  by_cases hA : A = outName num p
  · subst hA
    rw [h]
    simpa using henc
  · by_cases hs : (st.fs (outName num p)).isSome
    · simpa [hs] using henc
    · simp only [hs, Bool.false_and, Bool.and_true, Bool.not_false, if_neg, Bool.false_eq_true,
        not_false_eq_true, List.mem_append, List.mem_singleton]
      rintro (hc | hc)
      · exact henc hc
      · exact hA hc

theorem exportStep_results_mono {enc : String → String → ℕ} {force : Bool} {input num : String}
    {st : ExportState} {p : Platform} {r : String × Bool} (h : r ∈ st.results) :
    r ∈ (exportStep enc force input num st p).results := by
  unfold exportStep
  by_cases hs : (st.fs (outName num p)).isSome && !force
  · simp [hs, h]
  · simp [hs, h]

theorem exportRun_results_mono {enc : String → String → ℕ} {force : Bool} {input num : String} :
    ∀ (platforms : List Platform) (st : ExportState) (r : String × Bool),
      r ∈ st.results → r ∈ (exportRun enc force input num platforms st).results := by
  intro platforms
  induction platforms with
  | nil => intro st r h; exact h
  | cons p rest ih =>
      intro st r h
      exact ih _ r (exportStep_results_mono h)

theorem exportRun_fs_preserve (enc : String → String → ℕ) (input num : String) :
    ∀ (platforms : List Platform) (st : ExportState) (A : String) (v : ℕ),
      st.fs A = some v → A ∉ st.encoded →
      (exportRun enc false input num platforms st).fs A = some v ∧
        A ∉ (exportRun enc false input num platforms st).encoded := by
  intro platforms
  induction platforms with
  | nil => intro st A v h henc; exact ⟨h, henc⟩
  | cons p rest ih =>
      intro st A v h henc
      exact ih _ A v (exportStep_fs_preserve enc input num st p A v h)
        (exportStep_encoded_preserve enc input num st p A v h henc)

theorem exportRun_skip_reported {enc : String → String → ℕ} {input num : String} :
    ∀ (platforms : List Platform) (st : ExportState) (p : Platform) (v : ℕ),
      p ∈ platforms → st.fs (outName num p) = some v →
      (outName num p, true) ∈ (exportRun enc false input num platforms st).results := by
  intro platforms
  induction platforms with
  | nil => intro st p v h; simp at h
  | cons q rest ih =>
      intro st p v hmem h
      rcases List.mem_cons.mp hmem with hc | hc
      · subst hc
        refine exportRun_results_mono rest _ _ ?_
        simp only [exportStep]
        rw [h]
        simp
      · exact ih _ p v hc (exportStep_fs_preserve enc input num st q (outName num p) v h)

/-- Invariant of the produced-output argument: the target file is either not
yet present, or holds exactly the encoded content and an encode was
invoked for it. -/
def ProducedInv (enc : String → String → ℕ) (input A : String) (st : ExportState) : Prop :=
  st.fs A = none ∨ (st.fs A = some (enc input A) ∧ A ∈ st.encoded)

theorem exportStep_producedInv {enc : String → String → ℕ} {input num : String}
    {st : ExportState} {p : Platform} {A : String}
    (h : ProducedInv enc input A st) :
    ProducedInv enc input A (exportStep enc false input num st p) := by
  unfold ProducedInv at h ⊢
  unfold exportStep
  by_cases hA : A = outName num p
  · subst hA
    rcases h with h | ⟨h1, h2⟩
    · rw [h]
      simp
    · rw [h1]
      simp [h1, h2]
  · by_cases hs : (st.fs (outName num p)).isSome
    · simpa [hs] using h
    · rcases h with h | ⟨h1, h2⟩
      · simp [hs, hA, h]
      · simp only [hs, Bool.false_and, if_neg, Bool.false_eq_true, not_false_eq_true,
          List.mem_append, List.mem_singleton]
        right
        exact ⟨by simp [hA, h1], Or.inl h2⟩

theorem exportStep_produced (enc : String → String → ℕ) (input num : String)
    (st : ExportState) (p : Platform)
    (h : ProducedInv enc input (outName num p) st) :
    (exportStep enc false input num st p).fs (outName num p) = some (enc input (outName num p)) ∧
      outName num p ∈ (exportStep enc false input num st p).encoded := by
  unfold ProducedInv at h
  unfold exportStep
  rcases h with h | ⟨h1, h2⟩
  · rw [h]
    simp
  · rw [h1]
    simp [h1, h2]

theorem exportRun_produced_preserve {enc : String → String → ℕ} {input num : String} :
    ∀ (platforms : List Platform) (st : ExportState) (A : String),
      st.fs A = some (enc input A) → A ∈ st.encoded →
      (exportRun enc false input num platforms st).fs A = some (enc input A) ∧
        A ∈ (exportRun enc false input num platforms st).encoded := by
  intro platforms
  induction platforms with
  | nil => intro st A h1 h2; exact ⟨h1, h2⟩
  | cons p rest ih =>
      intro st A h1 h2
      have hfs := exportStep_fs_preserve enc input num st p A (enc input A) h1
      have henc : A ∈ (exportStep enc false input num st p).encoded := by
        unfold exportStep
        by_cases hs : (st.fs (outName num p)).isSome
        · simpa [hs] using h2
        · simp only [hs, Bool.false_and, if_neg, Bool.false_eq_true, not_false_eq_true,
            List.mem_append]
          exact Or.inl h2
      exact ih _ A hfs henc

theorem exportRun_produced {enc : String → String → ℕ} {input num : String} :
    ∀ (platforms : List Platform) (st : ExportState) (q : Platform),
      q ∈ platforms → ProducedInv enc input (outName num q) st →
      (exportRun enc false input num platforms st).fs (outName num q) =
          some (enc input (outName num q)) ∧
        outName num q ∈ (exportRun enc false input num platforms st).encoded := by
  intro platforms
  induction platforms with
  | nil => intro st q h; simp at h
  | cons p rest ih =>
      intro st q hmem hinv
      rcases List.mem_cons.mp hmem with hc | hc
      · subst hc
        have := exportStep_produced enc input num st _ hinv
        exact exportRun_produced_preserve rest _ _ this.1 this.2
      · exact ih _ q hc (exportStep_producedInv hinv)

/-!  Claim theorems for the renderer side.  -/

/-- C4: with fewer than two crop keyframes the static crop is authoritative:
the crop x used by VideoFrame.tsx equals crop.x at every time; with two or
more keyframes of strictly increasing times, the crop x at every time is the
piecewise-linear interpolation of the keyframes (holding the endpoint values
outside the covered range, per the clamp extrapolation). -/
theorem c4_cropXAt (crop : Crop) (kfs : List CropKeyframe) :
    (kfs.length < 2 → ∀ t : ℚ, cropXAt crop kfs t = crop.x) ∧
    (2 ≤ kfs.length → (kfs.map (fun k => k.t)).Chain' (· < ·) →
      ∀ t : ℚ, cropXAt crop kfs t = pwlAt kfs t) := by
  constructor
  · intro hlen t
    unfold cropXAt
    rw [if_neg (not_le.mpr hlen)]
  · intro hlen hmono t
    unfold cropXAt
    rw [if_pos hlen]
    exact interpolateList_eq_pwlAt kfs hlen hmono t

/-- Witness for C4 at concrete inputs: an empty keyframe list keeps the
static crop x, and a two-keyframe list interpolates. -/
theorem c4_cropXAt_witness :
    cropXAt ⟨100, 0, 607, 1080⟩ [] 3 = 100 ∧
    cropXAt ⟨100, 0, 607, 1080⟩ [⟨0, 10⟩, ⟨2, 30⟩] 1 = pwlAt [⟨0, 10⟩, ⟨2, 30⟩] 1 :=
  ⟨(c4_cropXAt ⟨100, 0, 607, 1080⟩ []).1 (by decide) 3,
   (c4_cropXAt ⟨100, 0, 607, 1080⟩ [⟨0, 10⟩, ⟨2, 30⟩]).2 (by decide)
     (by norm_num [List.chain'_cons]) 1⟩

/-- C5: every keyframe emitted through the pre-emission clamp keeps its x
within the valid crop range, and the interpolated crop x of VideoFrame.tsx
over such keyframes stays within that range at every time. -/
theorem c5_keyframe_bounds (sourceWidth cropWidth : ℚ) (raw : List CropKeyframe)
    (hfit : 0 ≤ sourceWidth - cropWidth)
    (hmono : ((emitKeyframes sourceWidth cropWidth raw).map (fun k => k.t)).Chain' (· < ·))
    (hlen : 2 ≤ (emitKeyframes sourceWidth cropWidth raw).length) :
    (∀ k ∈ emitKeyframes sourceWidth cropWidth raw,
        0 ≤ k.x ∧ k.x ≤ sourceWidth - cropWidth) ∧
    (∀ (crop : Crop) (t : ℚ),
        0 ≤ cropXAt crop (emitKeyframes sourceWidth cropWidth raw) t ∧
        cropXAt crop (emitKeyframes sourceWidth cropWidth raw) t ≤ sourceWidth - cropWidth) := by
  have hbound : ∀ k ∈ emitKeyframes sourceWidth cropWidth raw,
      0 ≤ k.x ∧ k.x ≤ sourceWidth - cropWidth := by
    intro k hk
    unfold emitKeyframes at hk
    rcases List.mem_map.mp hk with ⟨k0, _, rfl⟩
    unfold emitX
    exact ⟨le_max_left _ _, max_le hfit (min_le_right _ _)⟩
  refine ⟨hbound, ?_⟩
  intro crop t
  have hne : emitKeyframes sourceWidth cropWidth raw ≠ [] := by
    intro hnil
    rw [hnil] at hlen
    simp at hlen
  have hpwl := pwlAt_bounds 0 (sourceWidth - cropWidth)
    (emitKeyframes sourceWidth cropWidth raw) hne hmono hbound t
  unfold cropXAt
  rw [if_pos hlen, interpolateList_eq_pwlAt _ hlen hmono t]
  exact hpwl

/-- Witness for C5 at a concrete input: a raw series exiting the frame on
both sides is clamped at emission and interpolates within bounds. -/
theorem c5_keyframe_bounds_witness :
    0 ≤ cropXAt ⟨0, 0, 607, 1080⟩ (emitKeyframes 1920 607 [⟨0, -50⟩, ⟨2, 5000⟩]) 1 ∧
    cropXAt ⟨0, 0, 607, 1080⟩ (emitKeyframes 1920 607 [⟨0, -50⟩, ⟨2, 5000⟩]) 1 ≤ 1920 - 607 :=
  (c5_keyframe_bounds 1920 607 [⟨0, -50⟩, ⟨2, 5000⟩] (by norm_num)
    (by norm_num [emitKeyframes, emitX, List.chain'_cons])
    (by simp [emitKeyframes])).2 ⟨0, 0, 607, 1080⟩ 1

/-- C7: at the failing input (a clip with no reframe data) render.mjs does
not abort but falls back to the literal crop with x equal to 0, the left
edge of the source, even though its own warning message and the design
document call this fallback a centered crop; for the 1920 wide source the
centered x would be half of 1920 minus the crop width. -/
theorem c7_default_crop_left_edge :
    renderCrop none = ⟨0, 0, 607, 1080⟩ ∧
    (renderCrop none).x ≠ (1920 - (renderCrop none).w) / 2 := by
  constructor
  · rfl
  · show (0:ℚ) ≠ (1920 - 607) / 2
    norm_num

/-- C8: a caption is selected for a segment exactly when it lies entirely
inside the segment, and every selected caption is shifted to clip-local
milliseconds within the clip duration. -/
theorem c8_segCaptions (caps : List Caption) (s e : ℚ) :
    (∀ c ∈ caps, (s * 1000 ≤ c.startMs ∧ c.endMs ≤ e * 1000) ↔
        shiftCaption (s * 1000) c ∈ segCaptions caps s e) ∧
    (∀ d ∈ segCaptions caps s e, 0 ≤ d.startMs ∧ d.endMs ≤ (e - s) * 1000) := by
  constructor
  · intro c hc
    constructor
    · rintro ⟨h1, h2⟩
      unfold segCaptions
      exact List.mem_map_of_mem _ (List.mem_filter.mpr ⟨hc, by simp [h1, h2]⟩)
    · intro hmem
      unfold segCaptions at hmem
      rcases List.mem_map.mp hmem with ⟨c2, hc2, heq⟩
      have hf := (List.mem_filter.mp hc2).2
      simp only [Bool.and_eq_true, decide_eq_true_eq] at hf
      unfold shiftCaption at heq
      simp only [Caption.mk.injEq] at heq
      have hst : c2.startMs = c.startMs := by linarith [heq.2.1]
      have hen : c2.endMs = c.endMs := by linarith [heq.2.2]
      rw [← hst, ← hen]
      exact hf
  · intro d hd
    unfold segCaptions at hd
    rcases List.mem_map.mp hd with ⟨c, hcf, rfl⟩
    have hf := (List.mem_filter.mp hcf).2
    simp only [Bool.and_eq_true, decide_eq_true_eq] at hf
    unfold shiftCaption
    constructor
    · simp only []
      linarith [hf.1]
    · simp only []
      linarith [hf.2]

/-- Witness for C8 at a concrete input: one caption fully inside the
segment from second 1 to second 2. -/
theorem c8_segCaptions_witness :
    ((1 * 1000 ≤ (1200:ℚ) ∧ (1800:ℚ) ≤ 2 * 1000) ↔
      shiftCaption (1 * 1000) ⟨"a", 1200, 1800⟩ ∈
        segCaptions [⟨"a", 1200, 1800⟩] 1 2) ∧
    (0 ≤ (shiftCaption (1 * 1000) ⟨"a", 1200, 1800⟩).startMs ∧
      (shiftCaption (1 * 1000) ⟨"a", 1200, 1800⟩).endMs ≤ ((2:ℚ) - 1) * 1000) :=
  ⟨(c8_segCaptions [⟨"a", 1200, 1800⟩] 1 2).1 ⟨"a", 1200, 1800⟩ (by simp),
   (c8_segCaptions [⟨"a", 1200, 1800⟩] 1 2).2 (shiftCaption (1 * 1000) ⟨"a", 1200, 1800⟩)
     (by norm_num [segCaptions, shiftCaption])⟩

/-- C9: the composition metadata of Root.tsx is exactly the ceiling of
durationInSeconds times 30 as the frame count, at 30 fps and 1080 by 1920,
and it depends on no prop field other than durationInSeconds. -/
theorem c9_calculateMetadata (p q : ShortVideoProps)
    (h : p.durationInSeconds = q.durationInSeconds) :
    calculateMetadata p = ⟨⌈p.durationInSeconds * 30⌉, 30, 1080, 1920⟩ ∧
    calculateMetadata p = calculateMetadata q := by
  constructor
  · rfl
  · simp [calculateMetadata, h]

/-- Witness for C9 at concrete inputs: two prop values agreeing only on
durationInSeconds yield the same metadata, with 75 frames for 2.5 seconds. -/
theorem c9_calculateMetadata_witness :
    calculateMetadata ⟨"clip.mp4", 1920, 1080, ⟨0, 0, 607, 1080⟩, [], [], "bold", "", "",
        true, 5/2⟩ = ⟨75, 30, 1080, 1920⟩ ∧
    calculateMetadata ⟨"clip.mp4", 1920, 1080, ⟨0, 0, 607, 1080⟩, [], [], "bold", "", "",
        true, 5/2⟩ =
      calculateMetadata ⟨"other.mp4", 640, 480, ⟨1, 2, 3, 4⟩, [⟨0, 5⟩], [⟨"x", 0, 1⟩],
        "clean", "hook", "line", false, 5/2⟩ := by
  have h := c9_calculateMetadata
    ⟨"clip.mp4", 1920, 1080, ⟨0, 0, 607, 1080⟩, [], [], "bold", "", "", true, 5/2⟩
    ⟨"other.mp4", 640, 480, ⟨1, 2, 3, 4⟩, [⟨0, 5⟩], [⟨"x", 0, 1⟩], "clean", "hook", "line",
      false, 5/2⟩ rfl
  refine ⟨?_, h.2⟩
  rw [h.1]
  norm_num

/-- C10: in an export run without the force flag, an already existing
platform output file keeps its exact content, is reported with the skipped
flag, and no encode is invoked for it, while every other requested platform
output that does not yet exist is still produced by an encode. -/
theorem c10_export_skip (enc : String → String → ℕ) (input num : String)
    (fs0 : String → Option ℕ) (platforms : List Platform) (p : Platform) (v : ℕ)
    (hp : p ∈ platforms) (hv : fs0 (outName num p) = some v) :
    (exportRun enc false input num platforms ⟨fs0, [], []⟩).fs (outName num p) = some v ∧
    (outName num p, true) ∈ (exportRun enc false input num platforms ⟨fs0, [], []⟩).results ∧
    outName num p ∉ (exportRun enc false input num platforms ⟨fs0, [], []⟩).encoded ∧
    (∀ q ∈ platforms, fs0 (outName num q) = none →
      (exportRun enc false input num platforms ⟨fs0, [], []⟩).fs (outName num q) =
          some (enc input (outName num q)) ∧
        outName num q ∈ (exportRun enc false input num platforms ⟨fs0, [], []⟩).encoded) := by
  have hpres := exportRun_fs_preserve enc input num platforms
    ⟨fs0, [], []⟩ (outName num p) v hv (by simp)
  refine ⟨hpres.1, exportRun_skip_reported platforms _ p v hp hv, hpres.2, ?_⟩
  intro q hq hnone
  exact exportRun_produced platforms _ q hq (Or.inl hnone)

/-- Witness for C10 at a concrete input: an all-platform run where the
youtube output already exists keeps it, reports it skipped, never encodes
it, and still encodes the tiktok output. -/
theorem c10_export_skip_witness :
    (exportRun (fun _ _ => 42) false "in.mp4" "01" (platformsFor "all")
        ⟨fun n => if n = outName "01" Platform.youtube then some 7 else none, [], []⟩).fs
        (outName "01" Platform.youtube) = some 7 ∧
    (outName "01" Platform.youtube, true) ∈
      (exportRun (fun _ _ => 42) false "in.mp4" "01" (platformsFor "all")
        ⟨fun n => if n = outName "01" Platform.youtube then some 7 else none, [], []⟩).results ∧
    outName "01" Platform.youtube ∉
      (exportRun (fun _ _ => 42) false "in.mp4" "01" (platformsFor "all")
        ⟨fun n => if n = outName "01" Platform.youtube then some 7 else none, [], []⟩).encoded ∧
    ((exportRun (fun _ _ => 42) false "in.mp4" "01" (platformsFor "all")
        ⟨fun n => if n = outName "01" Platform.youtube then some 7 else none, [], []⟩).fs
        (outName "01" Platform.tiktok) = some 42 ∧
      outName "01" Platform.tiktok ∈
        (exportRun (fun _ _ => 42) false "in.mp4" "01" (platformsFor "all")
          ⟨fun n => if n = outName "01" Platform.youtube then some 7 else none, [], []⟩).encoded) := by
  have h := c10_export_skip (fun _ _ => 42) "in.mp4" "01"
    (fun n => if n = outName "01" Platform.youtube then some 7 else none)
    (platformsFor "all") Platform.youtube 7 (by decide) (by simp)
  exact ⟨h.1, h.2.1, h.2.2.1, h.2.2.2 Platform.tiktok (by decide) (by decide)⟩

/-!  Claim theorems for the boundary snapper (modelled from the spec).  -/

/-- C6: on every boundary, when the chosen silence interval has a
word-interior midpoint the silence adjustment is discarded and the boundary
keeps its incoming value from the word-boundary steps; and silence
refinement never turns a boundary that is not word-interior into a mid-word
cut. The refinement is the function that runs exactly when silence
refinement is enabled, and its failure is a plain fallthrough, not an
error. -/
theorem c6_refine_discard (ws : List Word) (sil : List SilenceInterval) (x : ℚ) :
    (∀ i : SilenceInterval,
      sil.find? (fun j => decide (j.startMs ≤ x + 500) && decide (x - 500 ≤ j.endMs)) = some i →
      wordInterior ws ((i.startMs + i.endMs) / 2) = true → refineMs ws sil x = x) ∧
    (wordInterior ws x = false → wordInterior ws (refineMs ws sil x) = false) := by
  constructor
  · intro i hfind hint
    unfold refineMs
    rw [hfind]
    simp [hint]
  · intro hx
    unfold refineMs
    cases hfind : sil.find?
        (fun j => decide (j.startMs ≤ x + 500) && decide (x - 500 ≤ j.endMs)) with
    | none => exact hx
    | some i =>
        show wordInterior ws
            (if wordInterior ws ((i.startMs + i.endMs) / 2) = true then x
             else (i.startMs + i.endMs) / 2) = false
        by_cases hint : wordInterior ws ((i.startMs + i.endMs) / 2) = true
        · rw [if_pos hint]
          exact hx
        · rw [if_neg hint]
          simpa using hint

/-- Witness for C6 at a concrete input: a silence interval with midpoint
1500 ms inside the word from 1000 ms to 2000 ms is discarded, and the
boundary at 1000 ms stays off word interiors. -/
theorem c6_refine_discard_witness :
    refineMs [⟨"hey", 1000, 2000⟩] [⟨1200, 1800⟩] 1000 = 1000 ∧
    wordInterior [⟨"hey", 1000, 2000⟩]
      (refineMs [⟨"hey", 1000, 2000⟩] [⟨1200, 1800⟩] 1000) = false :=
  ⟨(c6_refine_discard [⟨"hey", 1000, 2000⟩] [⟨1200, 1800⟩] 1000).1 ⟨1200, 1800⟩
      (by norm_num [List.find?]) (by norm_num [wordInterior, List.any]),
   (c6_refine_discard [⟨"hey", 1000, 2000⟩] [⟨1200, 1800⟩] 1000).2
      (by norm_num [wordInterior, List.any])⟩

/-- C1 counterexample: on the two-word transcript, the rough segment from
2.5 s to 3.8 s overlaps the word there, yet the snapped start lands at
2.0 s, the end timestamp of the sentence-final word Hi. — which is not the
start timestamp of any word, refuting the claim that the snapped start
always coincides with the start timestamp of some word. -/
theorem c1_start_counterexample :
    snapSegment cfgNoSil wordsEx [] 10 ⟨5/2, 19/5⟩ = ⟨2, 7⟩ ∧
    wordsEx.all (fun w => decide ((2:ℚ) * 1000 ≠ w.startMs)) = true := by
  constructor
  · norm_num [snapSegment, correctMs, enforceMs, overlapsRange, snapStartMs, snapEndMs,
      atOrBefore, atOrAfter, nextSentenceWithin, sentenceBoundaries, wordBoundaries,
      endsSentence, listMax, listMin, pickClosest, wordsEx, cfgNoSil, List.filter,
      List.any, Option.getD, SnappedSegment.mk.injEq]
  · norm_num [wordsEx, List.all]

/-- C1 amended: when the rough range overlaps a word, silence refinement is
disabled, some word boundary lies at or before the rough start, and the
transcript lies within the video, the snapped start coincides exactly with a
word boundary — the start or the end timestamp of some word — rather than
necessarily a word start. -/
theorem c1_start_on_word_boundary (cfg : SnapConfig) (ws : List Word)
    (sil : List SilenceInterval) (D : ℚ) (r : RoughSegment)
    (hcfg : cfg.useSilence = false)
    (hov : overlapsRange ws (r.startSec * 1000) (r.endSec * 1000) = true)
    (hsome : (atOrBefore ws (r.startSec * 1000)).isSome)
    (hws : WordsWithin ws (D * 1000)) :
    (snapSegment cfg ws sil D r).startSec * 1000 ∈ wordBoundaries ws := by
  have hc1 : (correctMs cfg ws sil (r.startSec * 1000) (r.endSec * 1000)).1 =
      snapStartMs ws (r.startSec * 1000) := by
    simp [correctMs, hov, hcfg]
  have hmem : snapStartMs ws (r.startSec * 1000) ∈ wordBoundaries ws := snapStartMs_mem hsome
  have hb := wordBoundaries_bounds hws hmem
  have hstart : (snapSegment cfg ws sil D r).startSec = snapStartMs ws (r.startSec * 1000) / 1000 := by
    simp only [snapSegment, enforceMs]
    rw [hc1, clamp_id hb.1 hb.2]
  rw [hstart, div_mul_cancel₀ _ (by norm_num : (1000:ℚ) ≠ 0)]
  exact hmem

/-- Witness for C1 amended at a concrete input: the rough segment from 1 s
to 3.5 s on the two-word transcript. -/
theorem c1_start_on_word_boundary_witness :
    (snapSegment cfgNoSil wordsEx [] 10 ⟨1, 7/2⟩).startSec * 1000 ∈ wordBoundaries wordsEx :=
  c1_start_on_word_boundary cfgNoSil wordsEx [] 10 ⟨1, 7/2⟩ rfl
    (by norm_num [overlapsRange, wordsEx, List.any])
    (by norm_num [atOrBefore, wordBoundaries, wordsEx, listMax, List.filter])
    (by norm_num [WordsWithin, wordsEx])

/-- C2 counterexample: a 3 s video with a rough segment covering it entirely
and no transcript words yields the snapped segment from 0 s to 3 s, whose
duration 3 s is below the claimed 5 s minimum — the video-end cap of the
duration-enforcement step defeats the minimum. -/
theorem c2_duration_counterexample :
    snapSegment cfgNoSil [] [] 3 ⟨0, 3⟩ = ⟨0, 3⟩ ∧
    (snapSegment cfgNoSil [] [] 3 ⟨0, 3⟩).endSec -
        (snapSegment cfgNoSil [] [] 3 ⟨0, 3⟩).startSec < 5 := by
  constructor
  · norm_num [snapSegment, correctMs, enforceMs, overlapsRange, listMax, wordBoundaries,
      cfgNoSil, SnappedSegment.mk.injEq]
  · norm_num [snapSegment, correctMs, enforceMs, overlapsRange, listMax, wordBoundaries,
      cfgNoSil]

/-- C2 amended: for a nonnegative video duration both snapped bounds always
lie in the video and the duration never exceeds 60 s; the 5 s minimum
additionally holds provided the pre-enforcement start is nonnegative, at
least 5 s of video remain after it, and the pre-enforcement duration is at
most 60 s — it can fail otherwise, as the counterexample shows. -/
theorem c2_duration_bounds (cfg : SnapConfig) (ws : List Word) (sil : List SilenceInterval)
    (D : ℚ) (r : RoughSegment) (hD : 0 ≤ D) :
    (0 ≤ (snapSegment cfg ws sil D r).startSec ∧ (snapSegment cfg ws sil D r).startSec ≤ D ∧
     0 ≤ (snapSegment cfg ws sil D r).endSec ∧ (snapSegment cfg ws sil D r).endSec ≤ D ∧
     (snapSegment cfg ws sil D r).endSec - (snapSegment cfg ws sil D r).startSec ≤ 60) ∧
    (0 ≤ (correctMs cfg ws sil (r.startSec * 1000) (r.endSec * 1000)).1 →
     (correctMs cfg ws sil (r.startSec * 1000) (r.endSec * 1000)).1 + 5000 ≤ D * 1000 →
     (correctMs cfg ws sil (r.startSec * 1000) (r.endSec * 1000)).2 -
         (correctMs cfg ws sil (r.startSec * 1000) (r.endSec * 1000)).1 ≤ 60000 →
     5 ≤ (snapSegment cfg ws sil D r).endSec - (snapSegment cfg ws sil D r).startSec) := by
  have hD1000 : (0:ℚ) ≤ D * 1000 := by linarith
  have hb := enforceMs_bounds ws (D * 1000)
    (correctMs cfg ws sil (r.startSec * 1000) (r.endSec * 1000)).1
    (correctMs cfg ws sil (r.startSec * 1000) (r.endSec * 1000)).2 hD1000
  constructor
  · simp only [snapSegment]
    refine ⟨?_, ?_, ?_, ?_, ?_⟩
    · exact div_nonneg hb.1 (by norm_num)
    · rw [div_le_iff₀ (by norm_num : (0:ℚ) < 1000)]
      exact hb.2.1
    · exact div_nonneg hb.2.2.1 (by norm_num)
    · rw [div_le_iff₀ (by norm_num : (0:ℚ) < 1000)]
      exact hb.2.2.2.1
    · rw [div_sub_div_same, div_le_iff₀ (by norm_num : (0:ℚ) < 1000)]
      linarith [hb.2.2.2.2]
  · intro h1 h2 h3
    have hmin := enforceMs_min ws (D * 1000)
      (correctMs cfg ws sil (r.startSec * 1000) (r.endSec * 1000)).1
      (correctMs cfg ws sil (r.startSec * 1000) (r.endSec * 1000)).2 h1 h2 h3
    simp only [snapSegment]
    rw [div_sub_div_same, le_div_iff₀ (by norm_num : (0:ℚ) < 1000)]
    linarith

/-- Witness for C2 amended at a concrete input: the rough segment from 1 s
to 3.5 s on the two-word transcript in a 100 s video satisfies all the side
conditions, and the snapped output obeys both duration bounds. -/
theorem c2_duration_bounds_witness :
    (0 ≤ (snapSegment cfgNoSil wordsEx [] 100 ⟨1, 7/2⟩).startSec ∧
     (snapSegment cfgNoSil wordsEx [] 100 ⟨1, 7/2⟩).startSec ≤ 100 ∧
     0 ≤ (snapSegment cfgNoSil wordsEx [] 100 ⟨1, 7/2⟩).endSec ∧
     (snapSegment cfgNoSil wordsEx [] 100 ⟨1, 7/2⟩).endSec ≤ 100 ∧
     (snapSegment cfgNoSil wordsEx [] 100 ⟨1, 7/2⟩).endSec -
         (snapSegment cfgNoSil wordsEx [] 100 ⟨1, 7/2⟩).startSec ≤ 60) ∧
    5 ≤ (snapSegment cfgNoSil wordsEx [] 100 ⟨1, 7/2⟩).endSec -
        (snapSegment cfgNoSil wordsEx [] 100 ⟨1, 7/2⟩).startSec := by
  have h := c2_duration_bounds cfgNoSil wordsEx [] 100 ⟨1, 7/2⟩ (by norm_num)
  have hc : correctMs cfgNoSil wordsEx [] ((1:ℚ) * 1000) ((7/2 : ℚ) * 1000) = (1000, 4300) := by
    norm_num [correctMs, overlapsRange, snapStartMs, snapEndMs, atOrBefore, atOrAfter,
      nextSentenceWithin, sentenceBoundaries, wordBoundaries, endsSentence, listMax,
      listMin, pickClosest, wordsEx, cfgNoSil, List.filter, List.any, Option.getD,
      Prod.mk.injEq]
  refine ⟨h.1, h.2 ?_ ?_ ?_⟩ <;> rw [show RoughSegment.startSec ⟨1, 7/2⟩ = (1:ℚ) from rfl,
    show RoughSegment.endSec ⟨1, 7/2⟩ = (7/2 : ℚ) from rfl, hc] <;> norm_num

/-- C3 counterexample: on the two-word transcript the snapper maps the rough
segment from 1 s to 3.5 s to the snapped segment from 1 s to 6 s, but
re-running it on that snapped segment yields 1 s to 6.3 s — the trailing
padding and forward end snap advance the end again, refuting idempotence. -/
theorem c3_idempotence_counterexample :
    snapSegment cfgNoSil wordsEx [] 10 ⟨1, 7/2⟩ = ⟨1, 6⟩ ∧
    snapSegment cfgNoSil wordsEx [] 10 ⟨1, 6⟩ ≠ ⟨1, 6⟩ := by
  constructor
  · norm_num [snapSegment, correctMs, enforceMs, overlapsRange, snapStartMs, snapEndMs,
      atOrBefore, atOrAfter, nextSentenceWithin, sentenceBoundaries, wordBoundaries,
      endsSentence, listMax, listMin, pickClosest, wordsEx, cfgNoSil, List.filter,
      List.any, Option.getD, SnappedSegment.mk.injEq]
  · norm_num [snapSegment, correctMs, enforceMs, overlapsRange, snapStartMs, snapEndMs,
      atOrBefore, atOrAfter, nextSentenceWithin, sentenceBoundaries, wordBoundaries,
      endsSentence, listMax, listMin, pickClosest, wordsEx, cfgNoSil, List.filter,
      List.any, Option.getD, SnappedSegment.mk.injEq]

/-- C3 amended: the snapper is not idempotent on the end, but the start is
stable: under the same side conditions as the amended C1, re-running the
snapper on its own output leaves the snapped start unchanged (the start
correction and sentence preference are no-ops on an already snapped
start). -/
theorem c3_start_idempotent (cfg : SnapConfig) (ws : List Word)
    (sil : List SilenceInterval) (D : ℚ) (r : RoughSegment)
    (hcfg : cfg.useSilence = false)
    (hov : overlapsRange ws (r.startSec * 1000) (r.endSec * 1000) = true)
    (hsome : (atOrBefore ws (r.startSec * 1000)).isSome)
    (hws : WordsWithin ws (D * 1000)) :
    (snapSegment cfg ws sil D
        ⟨(snapSegment cfg ws sil D r).startSec,
         (snapSegment cfg ws sil D r).endSec⟩).startSec =
      (snapSegment cfg ws sil D r).startSec := by
  have hc1 : (correctMs cfg ws sil (r.startSec * 1000) (r.endSec * 1000)).1 =
      snapStartMs ws (r.startSec * 1000) := by
    simp [correctMs, hov, hcfg]
  have hmem : snapStartMs ws (r.startSec * 1000) ∈ wordBoundaries ws := snapStartMs_mem hsome
  have hb := wordBoundaries_bounds hws hmem
  have hstart : (snapSegment cfg ws sil D r).startSec =
      snapStartMs ws (r.startSec * 1000) / 1000 := by
    simp only [snapSegment, enforceMs]
    rw [hc1, clamp_id hb.1 hb.2]
  have hs1 : (snapSegment cfg ws sil D r).startSec * 1000 =
      snapStartMs ws (r.startSec * 1000) := by
    rw [hstart, div_mul_cancel₀ _ (by norm_num : (1000:ℚ) ≠ 0)]
  have hc2 : (correctMs cfg ws sil ((snapSegment cfg ws sil D r).startSec * 1000)
      ((snapSegment cfg ws sil D r).endSec * 1000)).1 =
      snapStartMs ws (r.startSec * 1000) := by
    by_cases hov2 : overlapsRange ws ((snapSegment cfg ws sil D r).startSec * 1000)
        ((snapSegment cfg ws sil D r).endSec * 1000) = true
    · rw [hs1] at hov2 ⊢
      simp only [correctMs, hov2, if_true, hcfg, Bool.false_eq_true, if_false]
      exact snapStartMs_idem hsome
    · have hov2f : overlapsRange ws ((snapSegment cfg ws sil D r).startSec * 1000)
          ((snapSegment cfg ws sil D r).endSec * 1000) = false := by
        simpa using hov2
      simp only [correctMs, hov2f, Bool.false_eq_true, if_false]
      exact hs1
  have houter : (snapSegment cfg ws sil D
      ⟨(snapSegment cfg ws sil D r).startSec, (snapSegment cfg ws sil D r).endSec⟩).startSec =
      max 0 (min (correctMs cfg ws sil ((snapSegment cfg ws sil D r).startSec * 1000)
        ((snapSegment cfg ws sil D r).endSec * 1000)).1 (D * 1000)) / 1000 := rfl
  rw [houter, hc2, clamp_id hb.1 hb.2, hstart]

/-- Witness for C3 amended at a concrete input: the rough segment from 1 s
to 3.5 s on the two-word transcript keeps its snapped start on re-run. -/
theorem c3_start_idempotent_witness :
    (snapSegment cfgNoSil wordsEx [] 10
        ⟨(snapSegment cfgNoSil wordsEx [] 10 ⟨1, 7/2⟩).startSec,
         (snapSegment cfgNoSil wordsEx [] 10 ⟨1, 7/2⟩).endSec⟩).startSec =
      (snapSegment cfgNoSil wordsEx [] 10 ⟨1, 7/2⟩).startSec :=
  c3_start_idempotent cfgNoSil wordsEx [] 10 ⟨1, 7/2⟩ rfl
    (by norm_num [overlapsRange, wordsEx, List.any])
    (by norm_num [atOrBefore, wordBoundaries, wordsEx, listMax, List.filter])
    (by norm_num [WordsWithin, wordsEx])

end ClaudeShorts
